import Mathlib

/-!
Shallow embedding of `src/backend/main.py` (an in-memory CRUD API for
messages and calls with a pending/accepted status workflow, plus a
current-user slot), together with proofs of the specified properties.

The process-wide store `memory_db` (two ordered lists) and the global
`current_user` slot are modelled as an explicit `Store` value; each route
handler becomes a pure function `Store → result × Store` (successful
in-place mutation returns the updated store, `HTTPException(404, detail)`
becomes `Except.error detail`).  Python `datetime` values are modelled
abstractly as integers; pydantic `.dict()` serialization becomes a list of
key/value pairs in field-declaration order.
-/

namespace MyDocServer

/-- A pydantic serialization value: every field of the models is a string
except the timestamp. -/
inductive Value where
  | str (s : String)
  | time (t : Int)
deriving DecidableEq, Repr

/-- A pydantic `.dict()` result: key/value pairs in field-declaration order. -/
abbrev Dict : Type := List (String × Value)

/-- `class CurrentUser(BaseModel)` of `main.py`. -/
structure CurrentUser where
  id : String
  name : String
  phone : String
  email : String
deriving DecidableEq, Repr

/-- `class Message(BaseModel)` of `main.py`. -/
structure Message where
  id : String
  name : String
  phone : String
  content : String
  status : String
  timestamp : Int
deriving DecidableEq, Repr

/-- `class Call(BaseModel)` of `main.py`. -/
structure Call where
  id : String
  name : String
  phone : String
  timestamp : Int
  status : String
deriving DecidableEq, Repr

/-- `msg.dict()`: pydantic serialization of a `Message`, fields in
declaration order. -/
def Message.dict (m : Message) : Dict :=
  [("id", .str m.id), ("name", .str m.name), ("phone", .str m.phone),
   ("content", .str m.content), ("status", .str m.status),
   ("timestamp", .time m.timestamp)]

/-- `call.dict()`: pydantic serialization of a `Call`, fields in
declaration order. -/
def Call.dict (c : Call) : Dict :=
  [("id", .str c.id), ("name", .str c.name), ("phone", .str c.phone),
   ("timestamp", .time c.timestamp), ("status", .str c.status)]

/-- The process-wide state: `memory_db = {"messages": [], "calls": []}`
together with the global `current_user: Optional[CurrentUser] = None`. -/
structure Store where
  messages : List Message
  calls : List Call
  current_user : Option CurrentUser
deriving DecidableEq, Repr

/-- The initial store of a fresh process: both sequences empty, no
current user. -/
def initialStore : Store := ⟨[], [], none⟩

/-- `GET /messages` — `return memory_db["messages"]`. -/
def get_messages (db : Store) : List Message × Store :=
  (db.messages, db)

/-- `POST /messages` — `memory_db["messages"].append(message); return message`. -/
def add_message (message : Message) (db : Store) : Message × Store :=
  (message, { db with messages := db.messages ++ [message] })

/-- The linear scan of `update_message_status`: walk the list, overwrite the
status of the first element whose `id` matches, keep everything else as is.
Returns the (updated) matched element, if any, and the resulting list. -/
def updateFirstMessage (message_id status : String) :
    List Message → Option Message × List Message
  | [] => (none, [])
  | m :: ms =>
    if m.id = message_id then
      (some { m with status := status }, { m with status := status } :: ms)
    else
      let r := updateFirstMessage message_id status ms
      (r.1, m :: r.2)

/-- `PUT /messages/{message_id}` — scan `memory_db["messages"]`; on a match
set `message.status` and return the message, otherwise raise
`HTTPException(404, "Message not found")`. -/
def update_message_status (message_id : String) (status_update : String)
    (db : Store) : Except String Message × Store :=
  match updateFirstMessage message_id status_update db.messages with
  | (some m, ms) => (Except.ok m, { db with messages := ms })
  | (none, _) => (Except.error "Message not found", db)

/-- `GET /calls` — `return memory_db["calls"]`. -/
def get_calls (db : Store) : List Call × Store :=
  (db.calls, db)

/-- `POST /calls` — `memory_db["calls"].append(call); return call`. -/
def add_call (call : Call) (db : Store) : Call × Store :=
  (call, { db with calls := db.calls ++ [call] })

/-- The linear scan of `update_call_status`, analogous to
`updateFirstMessage`. -/
def updateFirstCall (call_id status : String) :
    List Call → Option Call × List Call
  | [] => (none, [])
  | c :: cs =>
    if c.id = call_id then
      (some { c with status := status }, { c with status := status } :: cs)
    else
      let r := updateFirstCall call_id status cs
      (r.1, c :: r.2)

/-- `PUT /calls/{call_id}` — scan `memory_db["calls"]`; on a match set
`call.status` and return the call, otherwise raise
`HTTPException(404, "Call not found")`. -/
def update_call_status (call_id : String) (status_update : String)
    (db : Store) : Except String Call × Store :=
  match updateFirstCall call_id status_update db.calls with
  | (some c, cs) => (Except.ok c, { db with calls := cs })
  | (none, _) => (Except.error "Call not found", db)

/-- The body of `GET /solicitudes`. -/
structure SolicitudesResponse where
  solicitudes : List Dict
  conversaciones_activas : List Dict
deriving DecidableEq, Repr

/-- `GET /solicitudes` — filter the pending and the accepted records of both
sequences, serialize each with `.dict()`, and concatenate messages before
calls in each group.  The handler only reads `memory_db`. -/
def get_solicitudes (db : Store) : SolicitudesResponse × Store :=
  let pending_messages :=
    (db.messages.filter (fun msg => msg.status = "pending")).map Message.dict
  let pending_calls :=
    (db.calls.filter (fun call => call.status = "pending")).map Call.dict
  let accepted_messages :=
    (db.messages.filter (fun msg => msg.status = "accepted")).map Message.dict
  let accepted_calls :=
    (db.calls.filter (fun call => call.status = "accepted")).map Call.dict
  (⟨pending_messages ++ pending_calls, accepted_messages ++ accepted_calls⟩, db)

/-- `POST /current_user` — `current_user = user; return current_user`. -/
def set_current_user (user : CurrentUser) (db : Store) : CurrentUser × Store :=
  (user, { db with current_user := some user })

/-- `GET /current_user` — return the slot, or raise
`HTTPException(404, "No current user set")` when it is `None`. -/
def get_current_user (db : Store) : Except String CurrentUser × Store :=
  match db.current_user with
  | none => (Except.error "No current user set", db)
  | some u => (Except.ok u, db)

/-! ### Client operation sequences

A reachable store state is one produced from `initialStore` by a sequence of
requests to the mutating endpoints. -/

/-- One request to a mutating endpoint. -/
inductive Op where
  | addMsg (m : Message)
  | addCall (c : Call)
  | updMsg (i st : String)
  | updCall (i st : String)
  | setUser (u : CurrentUser)
deriving DecidableEq, Repr

/-- The store effect of one request. -/
def applyOp : Op → Store → Store
  | .addMsg m, db => (add_message m db).2
  | .addCall c, db => (add_call c db).2
  | .updMsg i st, db => (update_message_status i st db).2
  | .updCall i st, db => (update_call_status i st db).2
  | .setUser u, db => (set_current_user u db).2

/-- Run a sequence of requests against a store. -/
def runOps (ops : List Op) (db : Store) : Store :=
  ops.foldl (fun db op => applyOp op db) db

/-- The messages created by a sequence of requests, in request order. -/
def createdMessages : List Op → List Message
  | [] => []
  | .addMsg m :: ops => m :: createdMessages ops
  | _ :: ops => createdMessages ops

/-- The calls created by a sequence of requests, in request order. -/
def createdCalls : List Op → List Call
  | [] => []
  | .addCall c :: ops => c :: createdCalls ops
  | _ :: ops => createdCalls ops

/-- Whether a request is a create (a `POST /messages` or `POST /calls`). -/
def Op.isCreate : Op → Bool
  | .addMsg _ => true
  | .addCall _ => true
  | _ => false

/-! ### Request bodies with omitted fields

A `POST /messages` or `POST /calls` body may omit the `id` and `status`
fields; pydantic then fills them from the model's field declarations
(`id` from the `uuid4` default factory — modelled by the `freshId`
argument — and `status` from `Field(default="pending")`). -/

/-- A `POST /messages` request body; `none` marks an omitted field. -/
structure MessageBody where
  id : Option String
  name : String
  phone : String
  content : String
  status : Option String
  timestamp : Int
deriving DecidableEq, Repr

/-- A `POST /calls` request body; `none` marks an omitted field. -/
structure CallBody where
  id : Option String
  name : String
  phone : String
  timestamp : Int
  status : Option String
deriving DecidableEq, Repr

/-- Pydantic validation of a `Message` body: omitted fields receive the
declared defaults (`id` a fresh uuid, `status` the string `"pending"`). -/
def Message.validate (freshId : String) (b : MessageBody) : Message :=
  { id := b.id.getD freshId, name := b.name, phone := b.phone,
    content := b.content, status := b.status.getD "pending",
    timestamp := b.timestamp }

/-- Pydantic validation of a `Call` body: omitted fields receive the
declared defaults (`id` a fresh uuid, `status` the string `"pending"`). -/
def Call.validate (freshId : String) (b : CallBody) : Call :=
  { id := b.id.getD freshId, name := b.name, phone := b.phone,
    timestamp := b.timestamp, status := b.status.getD "pending" }

/-! ### Concrete example records and request sequences -/

/-- Example message used to instantiate proved properties. -/
def exMsg : Message :=
  { id := "m1", name := "Ana", phone := "555", content := "hi",
    status := "pending", timestamp := 0 }

/-- A second example message, with a distinct identifier. -/
def exMsg2 : Message :=
  { id := "m2", name := "Bob", phone := "556", content := "yo",
    status := "accepted", timestamp := 1 }

/-- Example call used to instantiate proved properties. -/
def exCall : Call :=
  { id := "c1", name := "Eve", phone := "557", timestamp := 2,
    status := "pending" }

/-- An example request sequence made of creates only. -/
def exCreateOps : List Op := [.addMsg exMsg, .addCall exCall, .addMsg exMsg2]

/-- A message with a client-supplied identifier, used to exhibit an
identifier collision. -/
def dupMessage : Message :=
  { id := "a", name := "Ana", phone := "555", content := "hi",
    status := "pending", timestamp := 0 }

/-- A request sequence whose created records carry pairwise distinct
identifiers, with interleaved status updates. -/
def distinctIdOps : List Op :=
  [.addMsg exMsg, .updMsg "m1" "accepted", .addCall exCall,
   .addMsg exMsg2, .updCall "zz" "accepted", .setUser ⟨"u1", "Ana", "555", "a@b"⟩]


/-! ### Lemmas about the linear scans of the update handlers -/

theorem updateFirstMessage_of_no_match (i st : String) (l : List Message)
    (h : ∀ x ∈ l, x.id ≠ i) : updateFirstMessage i st l = (none, l) := by
  induction l with
  | nil => rfl
  | cons m ms ih =>
    have hm : m.id ≠ i := h m (by simp)
    simp [updateFirstMessage, hm, ih (fun x hx => h x (by simp [hx]))]

theorem updateFirstMessage_first_match (i st : String) (p : List Message)
    (m : Message) (s : List Message) (hp : ∀ x ∈ p, x.id ≠ i) (hm : m.id = i) :
    updateFirstMessage i st (p ++ m :: s) =
      (some { m with status := st }, p ++ { m with status := st } :: s) := by
  induction p with
  | nil => simp [updateFirstMessage, hm]
  | cons a q ih =>
    have ha : a.id ≠ i := hp a (by simp)
    simp [updateFirstMessage, ha, ih (fun x hx => hp x (by simp [hx]))]

theorem exists_first_message_match (i : String) (l : List Message)
    (h : ∃ x ∈ l, x.id = i) :
    ∃ p m s, l = p ++ m :: s ∧ (∀ x ∈ p, x.id ≠ i) ∧ m.id = i := by
  induction l with
  | nil => simp at h
  | cons a q ih =>
    by_cases ha : a.id = i
    · exact ⟨[], a, q, by simp, by simp, ha⟩
    · obtain ⟨x, hx, hxi⟩ := h
      rcases List.mem_cons.mp hx with rfl | hxq
      · exact absurd hxi ha
      · obtain ⟨p, m, s, hl, hp, hm⟩ := ih ⟨x, hxq, hxi⟩
        refine ⟨a :: p, m, s, by simp [hl], ?_, hm⟩
        intro y hy
        rcases List.mem_cons.mp hy with rfl | hyp
        · exact ha
        · exact hp y hyp

theorem updateFirstCall_of_no_match (i st : String) (l : List Call)
    (h : ∀ x ∈ l, x.id ≠ i) : updateFirstCall i st l = (none, l) := by
  induction l with
  | nil => rfl
  | cons c cs ih =>
    have hc : c.id ≠ i := h c (by simp)
    simp [updateFirstCall, hc, ih (fun x hx => h x (by simp [hx]))]

theorem updateFirstCall_first_match (i st : String) (p : List Call)
    (c : Call) (s : List Call) (hp : ∀ x ∈ p, x.id ≠ i) (hc : c.id = i) :
    updateFirstCall i st (p ++ c :: s) =
      (some { c with status := st }, p ++ { c with status := st } :: s) := by
  induction p with
  | nil => simp [updateFirstCall, hc]
  | cons a q ih =>
    have ha : a.id ≠ i := hp a (by simp)
    simp [updateFirstCall, ha, ih (fun x hx => hp x (by simp [hx]))]

theorem exists_first_call_match (i : String) (l : List Call)
    (h : ∃ x ∈ l, x.id = i) :
    ∃ p c s, l = p ++ c :: s ∧ (∀ x ∈ p, x.id ≠ i) ∧ c.id = i := by
  induction l with
  | nil => simp at h
  | cons a q ih =>
    by_cases ha : a.id = i
    · exact ⟨[], a, q, by simp, by simp, ha⟩
    · obtain ⟨x, hx, hxi⟩ := h
      rcases List.mem_cons.mp hx with rfl | hxq
      · exact absurd hxi ha
      · obtain ⟨p, c, s, hl, hp, hc⟩ := ih ⟨x, hxq, hxi⟩
        refine ⟨a :: p, c, s, by simp [hl], ?_, hc⟩
        intro y hy
        rcases List.mem_cons.mp hy with rfl | hyp
        · exact ha
        · exact hp y hyp

theorem updateFirstMessage_fst_spec (i st : String) (l : List Message)
    (m : Message) (h : (updateFirstMessage i st l).1 = some m) :
    m.status = st ∧ m.id = i := by
  by_cases hex : ∃ x ∈ l, x.id = i
  · obtain ⟨p, m0, s, rfl, hp, hm0⟩ := exists_first_message_match i l hex
    rw [updateFirstMessage_first_match i st p m0 s hp hm0] at h
    simp only [Option.some.injEq] at h
    subst h
    exact ⟨rfl, hm0⟩
  · push_neg at hex
    rw [updateFirstMessage_of_no_match i st l hex] at h
    simp at h

theorem updateFirstCall_fst_spec (i st : String) (l : List Call)
    (c : Call) (h : (updateFirstCall i st l).1 = some c) :
    c.status = st ∧ c.id = i := by
  by_cases hex : ∃ x ∈ l, x.id = i
  · obtain ⟨p, c0, s, rfl, hp, hc0⟩ := exists_first_call_match i l hex
    rw [updateFirstCall_first_match i st p c0 s hp hc0] at h
    simp only [Option.some.injEq] at h
    subst h
    exact ⟨rfl, hc0⟩
  · push_neg at hex
    rw [updateFirstCall_of_no_match i st l hex] at h
    simp at h

theorem update_message_status_eq_of_first (i st : String) (db : Store)
    (p : List Message) (m : Message) (s : List Message)
    (hl : db.messages = p ++ m :: s) (hp : ∀ x ∈ p, x.id ≠ i)
    (hm : m.id = i) :
    update_message_status i st db =
      (Except.ok { m with status := st },
       { db with messages := p ++ { m with status := st } :: s }) := by
  unfold update_message_status
  rw [hl, updateFirstMessage_first_match i st p m s hp hm]

theorem update_message_status_eq_of_no_match (i st : String) (db : Store)
    (h : ∀ x ∈ db.messages, x.id ≠ i) :
    update_message_status i st db = (Except.error "Message not found", db) := by
  unfold update_message_status
  rw [updateFirstMessage_of_no_match i st db.messages h]

theorem update_call_status_eq_of_first (i st : String) (db : Store)
    (p : List Call) (c : Call) (s : List Call)
    (hl : db.calls = p ++ c :: s) (hp : ∀ x ∈ p, x.id ≠ i)
    (hc : c.id = i) :
    update_call_status i st db =
      (Except.ok { c with status := st },
       { db with calls := p ++ { c with status := st } :: s }) := by
  unfold update_call_status
  rw [hl, updateFirstCall_first_match i st p c s hp hc]

theorem update_call_status_eq_of_no_match (i st : String) (db : Store)
    (h : ∀ x ∈ db.calls, x.id ≠ i) :
    update_call_status i st db = (Except.error "Call not found", db) := by
  unfold update_call_status
  rw [updateFirstCall_of_no_match i st db.calls h]

theorem updateFirstMessage_snd_map_id (i st : String) (l : List Message) :
    ((updateFirstMessage i st l).2).map Message.id = l.map Message.id := by
  induction l with
  | nil => rfl
  | cons m ms ih =>
    by_cases hm : m.id = i <;> simp [updateFirstMessage, hm, ih]

theorem updateFirstCall_snd_map_id (i st : String) (l : List Call) :
    ((updateFirstCall i st l).2).map Call.id = l.map Call.id := by
  induction l with
  | nil => rfl
  | cons c cs ih =>
    by_cases hc : c.id = i <;> simp [updateFirstCall, hc, ih]

theorem update_message_status_snd (i st : String) (db : Store) :
    ((update_message_status i st db).2).messages.map Message.id =
        db.messages.map Message.id
      ∧ ((update_message_status i st db).2).calls = db.calls
      ∧ ((update_message_status i st db).2).current_user = db.current_user := by
  unfold update_message_status
  rcases h : updateFirstMessage i st db.messages with ⟨r, ms⟩
  have hms : ms.map Message.id = db.messages.map Message.id := by
    have h2 := updateFirstMessage_snd_map_id i st db.messages
    rw [h] at h2
    exact h2
  cases r <;> simp [hms]

theorem update_call_status_snd (i st : String) (db : Store) :
    ((update_call_status i st db).2).calls.map Call.id = db.calls.map Call.id
      ∧ ((update_call_status i st db).2).messages = db.messages
      ∧ ((update_call_status i st db).2).current_user = db.current_user := by
  unfold update_call_status
  rcases h : updateFirstCall i st db.calls with ⟨r, cs⟩
  have hcs : cs.map Call.id = db.calls.map Call.id := by
    have h2 := updateFirstCall_snd_map_id i st db.calls
    rw [h] at h2
    exact h2
  cases r <;> simp [hcs]

theorem runOps_map_id (ops : List Op) (db : Store) :
    (runOps ops db).messages.map Message.id =
        db.messages.map Message.id ++ (createdMessages ops).map Message.id
      ∧ (runOps ops db).calls.map Call.id =
        db.calls.map Call.id ++ (createdCalls ops).map Call.id := by
  induction ops generalizing db with
  | nil => simp [runOps, createdMessages, createdCalls]
  | cons op ops ih =>
    have hstep : runOps (op :: ops) db = runOps ops (applyOp op db) := rfl
    rw [hstep]
    obtain ⟨ihm, ihc⟩ := ih (applyOp op db)
    cases op with
    | addMsg m =>
      simp [applyOp, add_message, createdMessages, createdCalls] at ihm ihc ⊢
      simp [ihm, ihc]
    | addCall c =>
      simp [applyOp, add_call, createdMessages, createdCalls] at ihm ihc ⊢
      simp [ihm, ihc]
    | updMsg i st =>
      obtain ⟨h1, h2, _⟩ := update_message_status_snd i st db
      simp only [applyOp] at ihm ihc ⊢
      rw [ihm, ihc, h1, h2]
      simp [createdMessages, createdCalls]
    | updCall i st =>
      obtain ⟨h1, h2, _⟩ := update_call_status_snd i st db
      simp only [applyOp] at ihm ihc ⊢
      rw [ihm, ihc, h1, h2]
      simp [createdMessages, createdCalls]
    | setUser u =>
      simp [applyOp, set_current_user, createdMessages, createdCalls] at ihm ihc ⊢
      simp [ihm, ihc]

theorem runOps_of_creates (ops : List Op) (db : Store)
    (h : ∀ op ∈ ops, op.isCreate = true) :
    (runOps ops db).messages = db.messages ++ createdMessages ops
      ∧ (runOps ops db).calls = db.calls ++ createdCalls ops := by
  induction ops generalizing db with
  | nil => simp [runOps, createdMessages, createdCalls]
  | cons op ops ih =>
    have hstep : runOps (op :: ops) db = runOps ops (applyOp op db) := rfl
    rw [hstep]
    have hops : ∀ op ∈ ops, op.isCreate = true := fun x hx => h x (by simp [hx])
    obtain ⟨ihm, ihc⟩ := ih (applyOp op db) hops
    cases op with
    | addMsg m => simp_all [applyOp, add_message, createdMessages, createdCalls]
    | addCall c => simp_all [applyOp, add_call, createdMessages, createdCalls]
    | updMsg i st => simp [Op.isCreate] at h
    | updCall i st => simp [Op.isCreate] at h
    | setUser u => simp [Op.isCreate] at h

/-! ### Lemmas about serialized records -/

theorem message_dict_inj (m m2 : Message) (h : m.dict = m2.dict) : m = m2 := by
  cases m
  cases m2
  simp only [Message.dict, List.cons.injEq, Prod.mk.injEq, Value.str.injEq,
    Value.time.injEq, and_true, true_and] at h
  simp_all

theorem call_dict_inj (c c2 : Call) (h : c.dict = c2.dict) : c = c2 := by
  cases c
  cases c2
  simp only [Call.dict, List.cons.injEq, Prod.mk.injEq, Value.str.injEq,
    Value.time.injEq, and_true, true_and] at h
  simp_all

theorem Message.dict_ne_Call_dict (m : Message) (c : Call) : m.dict ≠ c.dict := by
  intro h
  have hlen := congrArg List.length h
  simp [Message.dict, Call.dict] at hlen

/-- The `"status"` entry of a serialized `Message` is its status field. -/
theorem message_dict_lookup_status (m : Message) :
    List.lookup "status" m.dict = some (.str m.status) := by
  simp [Message.dict, List.lookup]

/-- The `"status"` entry of a serialized `Call` is its status field. -/
theorem call_dict_lookup_status (c : Call) :
    List.lookup "status" c.dict = some (.str c.status) := by
  simp [Call.dict, List.lookup]

theorem length_filter_add_length_filter_le {α : Type} (p q : α → Bool)
    (hpq : ∀ x, p x = true → q x = false) (l : List α) :
    (l.filter p).length + (l.filter q).length ≤ l.length := by
  induction l with
  | nil => simp
  | cons a l ih =>
    by_cases hp : p a
    · have hq := hpq a hp
      simp only [List.filter_cons, hp, hq, if_true, Bool.false_eq_true,
        if_false, List.length_cons]
      omega
    · by_cases hq : q a <;>
        simp only [List.filter_cons, hp, hq, Bool.false_eq_true, if_false,
          if_true, List.length_cons] <;>
        omega

/-! ### Membership in a serialized filter group -/

theorem mem_msg_part (ms : List Message) (cs : List Call) (st : String)
    (m : Message) :
    m.dict ∈ ((ms.filter fun x => x.status = st).map Message.dict)
        ++ ((cs.filter fun x => x.status = st).map Call.dict)
      ↔ m ∈ ms ∧ m.status = st := by
  constructor
  · intro h
    rcases List.mem_append.mp h with hm | hc
    · obtain ⟨m2, hm2, he⟩ := List.mem_map.mp hm
      obtain rfl := message_dict_inj m2 m he
      have h2 := List.mem_filter.mp hm2
      simpa using h2
    · obtain ⟨c, _, he⟩ := List.mem_map.mp hc
      exact absurd he.symm (Message.dict_ne_Call_dict m c)
  · rintro ⟨hm, hst⟩
    exact List.mem_append_left _
      (List.mem_map_of_mem _ (List.mem_filter.mpr ⟨hm, by simp [hst]⟩))

theorem mem_call_part (ms : List Message) (cs : List Call) (st : String)
    (c : Call) :
    c.dict ∈ ((ms.filter fun x => x.status = st).map Message.dict)
        ++ ((cs.filter fun x => x.status = st).map Call.dict)
      ↔ c ∈ cs ∧ c.status = st := by
  constructor
  · intro h
    rcases List.mem_append.mp h with hm | hc
    · obtain ⟨m, _, he⟩ := List.mem_map.mp hm
      exact absurd he (Message.dict_ne_Call_dict m c)
    · obtain ⟨c2, hc2, he⟩ := List.mem_map.mp hc
      obtain rfl := call_dict_inj c2 c he
      have h2 := List.mem_filter.mp hc2
      simpa using h2
  · rintro ⟨hc, hst⟩
    exact List.mem_append_right _
      (List.mem_map_of_mem _ (List.mem_filter.mpr ⟨hc, by simp [hst]⟩))

/-! ### The claims -/

/-- **C1.** For every store state, the partition query returns
`solicitudes` holding exactly the (serialized) records whose status is
`"pending"` and `conversaciones_activas` holding exactly those whose
status is `"accepted"`; in each group all messages precede all calls and
each kind keeps its insertion order (the groups are the order-preserving
filters of the two sequences, messages first), and a record with any
other status value belongs to neither group. -/
theorem partition_query_contents (db : Store) :
    ((get_solicitudes db).1.solicitudes =
        ((db.messages.filter fun x => x.status = "pending").map Message.dict)
          ++ ((db.calls.filter fun x => x.status = "pending").map Call.dict))
    ∧ ((get_solicitudes db).1.conversaciones_activas =
        ((db.messages.filter fun x => x.status = "accepted").map Message.dict)
          ++ ((db.calls.filter fun x => x.status = "accepted").map Call.dict))
    ∧ (∀ m : Message, m.dict ∈ (get_solicitudes db).1.solicitudes ↔
        m ∈ db.messages ∧ m.status = "pending")
    ∧ (∀ c : Call, c.dict ∈ (get_solicitudes db).1.solicitudes ↔
        c ∈ db.calls ∧ c.status = "pending")
    ∧ (∀ m : Message, m.dict ∈ (get_solicitudes db).1.conversaciones_activas ↔
        m ∈ db.messages ∧ m.status = "accepted")
    ∧ (∀ c : Call, c.dict ∈ (get_solicitudes db).1.conversaciones_activas ↔
        c ∈ db.calls ∧ c.status = "accepted") := by
  refine ⟨rfl, rfl, ?_, ?_, ?_, ?_⟩
  · exact fun m => mem_msg_part db.messages db.calls "pending" m
  · exact fun c => mem_call_part db.messages db.calls "pending" c
  · exact fun m => mem_msg_part db.messages db.calls "accepted" m
  · exact fun c => mem_call_part db.messages db.calls "accepted" c

/-- **C4.** The partition query is a pure function of the store: the store
after the query equals the store before, and a second query on the
resulting store returns the identical response. -/
theorem get_solicitudes_pure (db : Store) :
    (get_solicitudes db).2 = db
      ∧ get_solicitudes ((get_solicitudes db).2) = get_solicitudes db :=
  ⟨rfl, rfl⟩

/-- **C2.** For every store state and identifier, update-status succeeds
(returning the matched record with its status field overwritten by the
supplied value, as now stored) if and only if some record of the targeted
sequence bears that identifier; otherwise it fails with the NotFound
error and leaves the store unmodified — for the message and for the call
endpoint alike. -/
theorem update_status_found_iff (db : Store) (i st : String) :
    ((∃ m ∈ db.messages, m.id = i) ↔
        ∃ m, (update_message_status i st db).1 = Except.ok m)
    ∧ (∀ m, (update_message_status i st db).1 = Except.ok m →
        m.status = st ∧ m.id = i ∧
          m ∈ ((update_message_status i st db).2).messages)
    ∧ ((∀ m ∈ db.messages, m.id ≠ i) →
        update_message_status i st db = (Except.error "Message not found", db))
    ∧ ((∃ c ∈ db.calls, c.id = i) ↔
        ∃ c, (update_call_status i st db).1 = Except.ok c)
    ∧ (∀ c, (update_call_status i st db).1 = Except.ok c →
        c.status = st ∧ c.id = i ∧
          c ∈ ((update_call_status i st db).2).calls)
    ∧ ((∀ c ∈ db.calls, c.id ≠ i) →
        update_call_status i st db = (Except.error "Call not found", db)) := by
  refine ⟨⟨?_, ?_⟩, ?_, fun h => update_message_status_eq_of_no_match i st db h,
    ⟨?_, ?_⟩, ?_, fun h => update_call_status_eq_of_no_match i st db h⟩
  · intro hex
    obtain ⟨p, m0, s, hl, hp, hm0⟩ := exists_first_message_match i db.messages hex
    exact ⟨{ m0 with status := st },
      by rw [update_message_status_eq_of_first i st db p m0 s hl hp hm0]⟩
  · rintro ⟨m, hm⟩
    by_contra hno
    push_neg at hno
    rw [update_message_status_eq_of_no_match i st db hno] at hm
    simp at hm
  · intro m hm
    have hex : ∃ x ∈ db.messages, x.id = i := by
      by_contra hno
      push_neg at hno
      rw [update_message_status_eq_of_no_match i st db hno] at hm
      simp at hm
    obtain ⟨p, m0, s, hl, hp, hm0⟩ := exists_first_message_match i db.messages hex
    have he := update_message_status_eq_of_first i st db p m0 s hl hp hm0
    rw [he] at hm
    simp only [Except.ok.injEq] at hm
    subst hm
    refine ⟨rfl, hm0, ?_⟩
    rw [he]
    simp
  · intro hex
    obtain ⟨p, c0, s, hl, hp, hc0⟩ := exists_first_call_match i db.calls hex
    exact ⟨{ c0 with status := st },
      by rw [update_call_status_eq_of_first i st db p c0 s hl hp hc0]⟩
  · rintro ⟨c, hc⟩
    by_contra hno
    push_neg at hno
    rw [update_call_status_eq_of_no_match i st db hno] at hc
    simp at hc
  · intro c hc
    have hex : ∃ x ∈ db.calls, x.id = i := by
      by_contra hno
      push_neg at hno
      rw [update_call_status_eq_of_no_match i st db hno] at hc
      simp at hc
    obtain ⟨p, c0, s, hl, hp, hc0⟩ := exists_first_call_match i db.calls hex
    have he := update_call_status_eq_of_first i st db p c0 s hl hp hc0
    rw [he] at hc
    simp only [Except.ok.injEq] at hc
    subst hc
    refine ⟨rfl, hc0, ?_⟩
    rw [he]
    simp

/-- **C3.** A successful update-status changes only the matched record's
status field: the store's sequence decomposes around the matched record,
the returned record keeps its identifier, name, phone, content and
timestamp, every record before and after it is kept verbatim, and the
other sequence and the current-user slot are untouched. -/
theorem update_status_frame (db : Store) (i st : String) :
    (∀ m, (update_message_status i st db).1 = Except.ok m →
      ∃ p m0 s, db.messages = p ++ m0 :: s ∧ m0.id = i
        ∧ m = { m0 with status := st }
        ∧ m.id = m0.id ∧ m.name = m0.name ∧ m.phone = m0.phone
        ∧ m.content = m0.content ∧ m.timestamp = m0.timestamp
        ∧ (update_message_status i st db).2.messages = p ++ m :: s
        ∧ (update_message_status i st db).2.calls = db.calls
        ∧ (update_message_status i st db).2.current_user = db.current_user)
    ∧ (∀ c, (update_call_status i st db).1 = Except.ok c →
      ∃ p c0 s, db.calls = p ++ c0 :: s ∧ c0.id = i
        ∧ c = { c0 with status := st }
        ∧ c.id = c0.id ∧ c.name = c0.name ∧ c.phone = c0.phone
        ∧ c.timestamp = c0.timestamp
        ∧ (update_call_status i st db).2.calls = p ++ c :: s
        ∧ (update_call_status i st db).2.messages = db.messages
        ∧ (update_call_status i st db).2.current_user = db.current_user) := by
  constructor
  · intro m hm
    have hex : ∃ x ∈ db.messages, x.id = i := by
      by_contra hno
      push_neg at hno
      rw [update_message_status_eq_of_no_match i st db hno] at hm
      simp at hm
    obtain ⟨p, m0, s, hl, hp, hm0⟩ := exists_first_message_match i db.messages hex
    have he := update_message_status_eq_of_first i st db p m0 s hl hp hm0
    rw [he] at hm
    simp only [Except.ok.injEq] at hm
    subst hm
    exact ⟨p, m0, s, hl, hm0, rfl, rfl, rfl, rfl, rfl, rfl,
      by rw [he], by rw [he], by rw [he]⟩
  · intro c hc
    have hex : ∃ x ∈ db.calls, x.id = i := by
      by_contra hno
      push_neg at hno
      rw [update_call_status_eq_of_no_match i st db hno] at hc
      simp at hc
    obtain ⟨p, c0, s, hl, hp, hc0⟩ := exists_first_call_match i db.calls hex
    have he := update_call_status_eq_of_first i st db p c0 s hl hp hc0
    rw [he] at hc
    simp only [Except.ok.injEq] at hc
    subst hc
    exact ⟨p, c0, s, hl, hc0, rfl, rfl, rfl, rfl, rfl,
      by rw [he], by rw [he], by rw [he]⟩

/-- **C9.** The scan stops at the first matching record: whenever the
targeted sequence splits as a match-free prefix, a first record bearing
the identifier, and an arbitrary suffix (which may hold further records
with the same identifier), the update overwrites and returns exactly that
first record and returns the prefix and the suffix verbatim. -/
theorem update_status_first_match_only (db : Store) (i st : String) :
    (∀ p m s, db.messages = p ++ m :: s → (∀ x ∈ p, x.id ≠ i) → m.id = i →
      update_message_status i st db =
        (Except.ok { m with status := st },
         { db with messages := p ++ { m with status := st } :: s }))
    ∧ (∀ p c s, db.calls = p ++ c :: s → (∀ x ∈ p, x.id ≠ i) → c.id = i →
      update_call_status i st db =
        (Except.ok { c with status := st },
         { db with calls := p ++ { c with status := st } :: s })) :=
  ⟨fun p m s hl hp hm => update_message_status_eq_of_first i st db p m s hl hp hm,
   fun p c s hl hp hc => update_call_status_eq_of_first i st db p c s hl hp hc⟩

/-- **C5.** Starting from the empty store, a sequence of create requests
leaves exactly the created records in the store, in insertion order, and
the list endpoints return them unfiltered; each create appends its record
to the relevant sequence and returns the stored record unchanged. -/
theorem creates_then_list (ops : List Op) (h : ∀ op ∈ ops, op.isCreate = true) :
    (get_messages (runOps ops initialStore)).1 = createdMessages ops
    ∧ (get_calls (runOps ops initialStore)).1 = createdCalls ops
    ∧ (∀ (m : Message) (db : Store),
        add_message m db = (m, { db with messages := db.messages ++ [m] }))
    ∧ (∀ (c : Call) (db : Store),
        add_call c db = (c, { db with calls := db.calls ++ [c] })) := by
  obtain ⟨h1, h2⟩ := runOps_of_creates ops initialStore h
  refine ⟨?_, ?_, fun m db => rfl, fun c db => rfl⟩
  · show (runOps ops initialStore).messages = createdMessages ops
    rw [h1]
    simp [initialStore]
  · show (runOps ops initialStore).calls = createdCalls ops
    rw [h2]
    simp [initialStore]

/-- Witness for C5 at a concrete create sequence. -/
theorem creates_then_list_witness :
    (get_messages (runOps exCreateOps initialStore)).1 = createdMessages exCreateOps
    ∧ (get_calls (runOps exCreateOps initialStore)).1 = createdCalls exCreateOps
    ∧ (∀ (m : Message) (db : Store),
        add_message m db = (m, { db with messages := db.messages ++ [m] }))
    ∧ (∀ (c : Call) (db : Store),
        add_call c db = (c, { db with calls := db.calls ++ [c] })) :=
  creates_then_list exCreateOps (by decide)

/-- **C6.** Setting the current user unconditionally replaces the
singleton slot and returns the new value; after any sequence of sets the
get endpoint returns exactly the most recently set user; on the initial
store, where no set has occurred, it fails with the NotFound error. -/
theorem current_user_slot (db : Store) (u : CurrentUser)
    (us : List CurrentUser) :
    set_current_user u db = (u, { db with current_user := some u })
    ∧ (get_current_user (runOps ((us ++ [u]).map Op.setUser) db)).1 =
        Except.ok u
    ∧ (get_current_user initialStore).1 =
        Except.error "No current user set" := by
  refine ⟨rfl, ?_, rfl⟩
  simp [runOps, List.foldl_append, applyOp, set_current_user, get_current_user]

/-- **C7.** A create whose request body omits the status field stores the
record with status `"pending"`, and the stored record then shows up in
the `solicitudes` group of the partition query. -/
theorem default_status_pending (freshId : String) (mb : MessageBody)
    (cb : CallBody) (db : Store) :
    (mb.status = none →
      (Message.validate freshId mb).status = "pending"
      ∧ (Message.validate freshId mb).dict ∈
          (get_solicitudes
            (add_message (Message.validate freshId mb) db).2).1.solicitudes)
    ∧ (cb.status = none →
      (Call.validate freshId cb).status = "pending"
      ∧ (Call.validate freshId cb).dict ∈
          (get_solicitudes
            (add_call (Call.validate freshId cb) db).2).1.solicitudes) := by
  constructor
  · intro hmb
    have hst : (Message.validate freshId mb).status = "pending" := by
      simp [Message.validate, hmb]
    refine ⟨hst, ?_⟩
    have hs : (get_solicitudes
          (add_message (Message.validate freshId mb) db).2).1.solicitudes =
        (((add_message (Message.validate freshId mb) db).2.messages.filter
            fun x => x.status = "pending").map Message.dict)
          ++ (((add_message (Message.validate freshId mb) db).2.calls.filter
            fun x => x.status = "pending").map Call.dict) := rfl
    rw [hs]
    exact (mem_msg_part _ _ "pending" _).mpr ⟨by simp [add_message], hst⟩
  · intro hcb
    have hst : (Call.validate freshId cb).status = "pending" := by
      simp [Call.validate, hcb]
    refine ⟨hst, ?_⟩
    have hs : (get_solicitudes
          (add_call (Call.validate freshId cb) db).2).1.solicitudes =
        (((add_call (Call.validate freshId cb) db).2.messages.filter
            fun x => x.status = "pending").map Message.dict)
          ++ (((add_call (Call.validate freshId cb) db).2.calls.filter
            fun x => x.status = "pending").map Call.dict) := rfl
    rw [hs]
    exact (mem_call_part _ _ "pending" _).mpr ⟨by simp [add_call], hst⟩

/-- **C8, counterexample.** Identifier uniqueness is not an invariant of
the reachable states: creating the same client-supplied identifier twice
from the empty store yields a message sequence whose identifiers are not
pairwise distinct. -/
theorem identifier_uniqueness_cex :
    ¬ (((runOps [Op.addMsg dupMessage, Op.addMsg dupMessage]
          initialStore).messages.map Message.id).Nodup) := by
  decide

/-- **C8, amended.** Creation does not enforce identifier uniqueness (the
counterexample reaches a duplicated identifier with a repeated
client-supplied id); uniqueness within each sequence holds exactly when
the created records of the request sequence carry pairwise distinct
identifiers, and is then preserved by all reachable states, since updates
never change identifiers. -/
theorem identifier_uniqueness_amended (ops : List Op)
    (hm : ((createdMessages ops).map Message.id).Nodup)
    (hc : ((createdCalls ops).map Call.id).Nodup) :
    ((runOps ops initialStore).messages.map Message.id).Nodup
    ∧ ((runOps ops initialStore).calls.map Call.id).Nodup := by
  obtain ⟨h1, h2⟩ := runOps_map_id ops initialStore
  rw [show initialStore.messages = [] from rfl, List.map_nil,
    List.nil_append] at h1
  rw [show initialStore.calls = [] from rfl, List.map_nil,
    List.nil_append] at h2
  constructor
  · rw [h1]
    exact hm
  · rw [h2]
    exact hc

/-- Witness for the amended C8 at a concrete request sequence with
distinct created identifiers. -/
theorem identifier_uniqueness_amended_witness :
    ((runOps distinctIdOps initialStore).messages.map Message.id).Nodup
    ∧ ((runOps distinctIdOps initialStore).calls.map Call.id).Nodup :=
  identifier_uniqueness_amended distinctIdOps (by decide) (by decide)

theorem status_of_mem_part (ms : List Message) (cs : List Call)
    (st : String) (d : Dict)
    (hd : d ∈ ((ms.filter fun x => x.status = st).map Message.dict)
        ++ ((cs.filter fun x => x.status = st).map Call.dict)) :
    List.lookup "status" d = some (.str st) := by
  rcases List.mem_append.mp hd with h | h
  · obtain ⟨m, hm, rfl⟩ := List.mem_map.mp h
    have hst : m.status = st := by simpa using (List.mem_filter.mp hm).2
    rw [message_dict_lookup_status, hst]
  · obtain ⟨c, hc, rfl⟩ := List.mem_map.mp h
    have hst : c.status = st := by simpa using (List.mem_filter.mp hc).2
    rw [call_dict_lookup_status, hst]

/-- **C10.** The two groups returned by the partition query are disjoint
(no serialized record lies in both), and their combined length never
exceeds the total number of stored records. -/
theorem partition_disjoint (db : Store) :
    (∀ d ∈ (get_solicitudes db).1.solicitudes,
        d ∉ (get_solicitudes db).1.conversaciones_activas)
    ∧ (get_solicitudes db).1.solicitudes.length
        + (get_solicitudes db).1.conversaciones_activas.length
        ≤ db.messages.length + db.calls.length := by
  have hs : (get_solicitudes db).1.solicitudes =
      ((db.messages.filter fun x => x.status = "pending").map Message.dict)
        ++ ((db.calls.filter fun x => x.status = "pending").map Call.dict) := rfl
  have ha : (get_solicitudes db).1.conversaciones_activas =
      ((db.messages.filter fun x => x.status = "accepted").map Message.dict)
        ++ ((db.calls.filter fun x => x.status = "accepted").map Call.dict) := rfl
  constructor
  · intro d hd hd2
    rw [hs] at hd
    rw [ha] at hd2
    have h1 := status_of_mem_part db.messages db.calls "pending" d hd
    have h2 := status_of_mem_part db.messages db.calls "accepted" d hd2
    rw [h1] at h2
    simp at h2
  · rw [hs, ha]
    simp only [List.length_append, List.length_map]
    have hm := length_filter_add_length_filter_le
      (fun x : Message => x.status = "pending")
      (fun x : Message => x.status = "accepted")
      (fun x hx => by
        simp only [decide_eq_true_eq] at hx
        simp [hx]) db.messages
    have hc := length_filter_add_length_filter_le
      (fun x : Call => x.status = "pending")
      (fun x : Call => x.status = "accepted")
      (fun x hx => by
        simp only [decide_eq_true_eq] at hx
        simp [hx]) db.calls
    omega

end MyDocServer
